import Mathlib

/-!
Verification development for the UART frame recognizer of
`decode-serial-csv/decode-serial.py`.

Timestamps (python 64-bit floats used as exact decimal seconds) are modelled
as rationals `ℚ`; levels (python ints from the CSV) as integers `ℤ`.
Python `assert` failures and the `ChannelCursorOutOfRangeException` are
modelled as explicit error values.  The `while` loop inside
`ChannelCursor.advance` and the recognizer's outer `while True` loop are
modelled with explicit fuel; lemmas below show the fuel supplied at the call
sites is never exhausted, so the fuel branch is unreachable and the model
computes exactly what the python loops compute.
-/

namespace SlibDecode

/-- One stored channel entry: `(timestamp, level)` as in the python tuples. -/
abbrev Entry : Type := ℚ × ℤ

/-- Default entry used by `List.getD`; every access below is guarded by an
index-in-range check mirroring where the python code would raise
`IndexError`, so the default is never read on the executed paths. -/
def dEntry : Entry := (0, 0)

/-- `Channel.add` (decode-serial.py lines 49-58) acting on the entry list:
if empty, append; otherwise `assert(eventTS > prev[0])` (modelled as `none`),
then append only when the value differs from the last stored one. -/
def Channel.add (entries : List Entry) (eventTS : ℚ) (eventValue : ℤ) :
    Option (List Entry) :=
  match entries.getLast? with
  | none => some (entries ++ [(eventTS, eventValue)])
  | some prev =>
    if eventTS > prev.1 then
      if eventValue ≠ prev.2 then some (entries ++ [(eventTS, eventValue)])
      else some entries
    else none

/-- Build a channel by a sequence of `add` calls starting from the given
entry list; `none` as soon as one `add` asserts. -/
def Channel.buildFrom (entries : List Entry) : List (ℚ × ℤ) → Option (List Entry)
  | [] => some entries
  | (ts, v) :: rest =>
    match Channel.add entries ts v with
    | none => none
    | some entries2 => Channel.buildFrom entries2 rest

/-- `Channel.finishAdding` (lines 62-68): when `tailLength > 0`,
`assert(len(self.entries) > 0)` and append a synthetic tail entry repeating
the last level `tailLength` after the last timestamp; otherwise leave the
entries unchanged.  (The python code then freezes the list into a tuple.) -/
def Channel.finishAdding (entries : List Entry) (tailLength : ℚ) :
    Option (List Entry) :=
  if tailLength > 0 then
    match entries.getLast? with
    | none => none
    | some prev => some (entries ++ [(prev.1 + tailLength, prev.2)])
  else some entries

/-- Errors of the cursor model: `oor` is `ChannelCursorOutOfRangeException`,
`assertFail` a failing python `assert`, `zeroDiv` the `ZeroDivisionError`
raised by `bitperiod = 1 / float(baudrate)` at baud rate 0 (line 196), and
`fuel` the (provably unreachable) exhaustion of the modelling fuel. -/
inductive CErr
  | oor
  | assertFail
  | zeroDiv
  | fuel
deriving DecidableEq

/-- `ChannelCursor` state (lines 118-190): the shared read-only entries
tuple plus the three scalar fields. -/
@[ext]
structure Cursor where
  entries : List Entry
  curIndex : ℕ
  curPosition : ℚ
  startOfNextEntry : ℚ
deriving DecidableEq

deriving instance DecidableEq for Except

/-- `getStartOfNextEntry` (lines 132-135). -/
def Cursor.getStartOfNextEntry (c : Cursor) : ℚ :=
  if c.curIndex < c.entries.length - 1 then (c.entries.getD (c.curIndex + 1) dEntry).1
  else (c.entries.getD c.curIndex dEntry).1

/-- `getPosition` (lines 138-139). -/
def Cursor.getPosition (c : Cursor) : ℚ := c.curPosition

/-- `getValue` (lines 142-143): level of the entry at `curIndex`. -/
def Cursor.getValue (c : Cursor) : ℤ := (c.entries.getD c.curIndex dEntry).2

/-- `isAtEnd` (lines 146-147). -/
def Cursor.isAtEnd (c : Cursor) : Bool := c.curIndex ≥ c.entries.length

/-- `ChannelCursor.__init__` (lines 120-129): asserts the channel is
non-empty, starts at index 0 positioned on the first entry's timestamp. -/
def Cursor.initFor (entries : List Entry) : Option Cursor :=
  if entries.length > 0 then
    let c0 : Cursor :=
      { entries := entries
        curIndex := 0
        curPosition := (entries.getD 0 dEntry).1
        startOfNextEntry := 0 }
    some { c0 with startOfNextEntry := c0.getStartOfNextEntry }
  else none

/-- The body of one iteration of the `while` loop in `advance`
(lines 161-163) after the end check has passed: `self.curIndex += 1`
followed by `self.startOfNextEntry = self.getStartOfNextEntry()`. -/
def Cursor.step (c : Cursor) : Cursor :=
  let c1 : Cursor := { c with curIndex := c.curIndex + 1 }
  { c1 with startOfNextEntry := c1.getStartOfNextEntry }

/-- The `while` loop of `advance` (lines 156-166), one fuel unit per
iteration: while `curPosition + advanceBy ≥ startOfNextEntry`, step
`curIndex`, raise out-of-range once past the last entry (`raiseIfAtEnd`,
lines 150-152), and recompute the boundary; on exit add `advanceBy` to
`curPosition`. -/
def Cursor.advanceLoop : ℕ → Cursor → ℚ → Except CErr Cursor
  | 0, _, _ => .error .fuel
  | fuel + 1, c, advanceBy =>
    if c.curPosition + advanceBy ≥ c.startOfNextEntry then
      if c.curIndex + 1 ≥ c.entries.length then .error .oor
      else Cursor.advanceLoop fuel c.step advanceBy
    else
      .ok { c with curPosition := c.curPosition + advanceBy }

/-- `advance` (lines 156-166); fuel `length + 1` is shown sufficient below. -/
def Cursor.advance (c : Cursor) (advanceBy : ℚ) : Except CErr Cursor :=
  Cursor.advanceLoop (c.entries.length + 1) c advanceBy

/-- `advanceUntilChangeTo` (lines 171-185): raise if at end, advance to the
next boundary, `assert(self.curIndex != origIndex)`, and if the level there
is not the target advance one more boundary. -/
def Cursor.advanceUntilChangeTo (c : Cursor) (targetValue : ℤ) : Except CErr Cursor :=
  if c.curIndex ≥ c.entries.length then .error .oor
  else
    match c.advance (c.startOfNextEntry - c.curPosition) with
    | .error e => .error e
    | .ok c1 =>
      if c1.curIndex = c.curIndex then .error .assertFail
      else if c1.getValue ≠ targetValue then
        c1.advance (c1.startOfNextEntry - c1.curPosition)
      else .ok c1

/-- `copy.copy(c)` (line 207): a shallow copy — the scalar fields are copied
and the immutable `entries` reference is shared.  In this pure model a
cursor is a value, so the copy is the value itself; the theorems below show
no cursor operation ever changes the shared `entries`. -/
def Cursor.clone (c : Cursor) : Cursor := c

/-- Run a sequence of `advance` calls (used to express that advancing only a
clone leaves the original untouched). -/
def Cursor.advanceSeq (c : Cursor) : List ℚ → Except CErr Cursor
  | [] => .ok c
  | d :: ds =>
    match c.advance d with
    | .error e => .error e
    | .ok c2 => Cursor.advanceSeq c2 ds

/-- The level of the piecewise-constant waveform at time `t`: the level of
the last entry whose timestamp is `≤ t` (the first entry's level before the
first timestamp).  Pure specification device, not part of the python code. -/
def levelAt : List Entry → ℚ → ℤ
  | [], _ => 0
  | e :: rest, t =>
    match rest with
    | [] => e.2
    | e2 :: _ => if t < e2.1 then e.2 else levelAt rest t

/-- One iteration of the recognizer's `while True` body (lines 198-240):
seek the next transition to 0, debounce with a cloned cursor half a bit
period ahead, then sample the data bits and the stop bit.  Returns the
optionally emitted frame and the updated cursor; any cursor error
propagates (to be caught by the outer loop only when it is `oor`). -/
def recognizeIter (c : Cursor) (bitperiod : ℚ) (dataBitsPerFrame : ℕ)
    (omitInvalidFrames : Bool) : Except CErr (Option (ℚ × ℤ × Bool) × Cursor) :=
  match c.advanceUntilChangeTo 0 with
  | .error e => .error e
  | .ok c1 =>
    let eventStartsAt := c1.getPosition
    match (Cursor.clone c1).advance (bitperiod / 2) with
    | .error e => .error e
    | .ok peeker =>
      if ¬(peeker.getValue = 0) then
        match c1.advance (bitperiod / 2) with
        | .error e => .error e
        | .ok c2 => .ok (none, c2)
      else
        match c1.advance (bitperiod * (3 / 2)) with
        | .error e => .error e
        | .ok c2 =>
          match sampleBits dataBitsPerFrame c2 bitperiod 0 1 with
          | .error e => .error e
          | .ok (data, c3) =>
            let frameIsValid := c3.getValue = 1
            match c3.advance (bitperiod / 2) with
            | .error e => .error e
            | .ok c4 =>
              if omitInvalidFrames ∧ ¬frameIsValid then .ok (none, c4)
              else .ok (some (eventStartsAt, data, frameIsValid), c4)
where
  /-- The bit-collection `for` loop (lines 220-228): read the level, add
  `factor * bit`, advance one bit period, double the factor. -/
  sampleBits : ℕ → Cursor → ℚ → ℤ → ℤ → Except CErr (ℤ × Cursor)
    | 0, c, _, data, _ => .ok (data, c)
    | k + 1, c, bp, data, factor =>
      match c.advance bp with
      | .error e => .error e
      | .ok c2 => sampleBits k c2 bp (data + factor * c.getValue) (factor * 2)

/-- The recognizer's outer `while True` loop (lines 198-249), one fuel unit
per iteration: an `oor` error from the body is caught and ends the frame
list (lines 242-249); any other error propagates. -/
def recognizeLoop : ℕ → Cursor → ℚ → ℕ → Bool → Except CErr (List (ℚ × ℤ × Bool))
  | 0, _, _, _, _ => .error .fuel
  | fuel + 1, c, bitperiod, dataBitsPerFrame, omitInvalidFrames =>
    match recognizeIter c bitperiod dataBitsPerFrame omitInvalidFrames with
    | .error .oor => .ok []
    | .error e => .error e
    | .ok (emitted, c2) =>
      match recognizeLoop fuel c2 bitperiod dataBitsPerFrame omitInvalidFrames with
      | .error e => .error e
      | .ok rest => .ok (emitted.toList ++ rest)

/-- `recognizeUART` (lines 194-249): build a cursor over the channel
(asserting non-emptiness), set `bitperiod = 1 / float(baudrate)` — which
raises `ZeroDivisionError` when the baud rate is 0, before any frame is
produced — and run the loop.  The list of emitted
`(timestamp, data, frameIsValid)` triples is the sequence the python
generator yields. -/
def recognizeUART (channel : List Entry) (baudrate : ℚ) (dataBitsPerFrame : ℕ)
    (omitInvalidFrames : Bool) : Except CErr (List (ℚ × ℤ × Bool)) :=
  match Cursor.initFor channel with
  | none => .error .assertFail
  | some c =>
    if baudrate = 0 then .error .zeroDiv
    else recognizeLoop (channel.length + 1) c (1 / baudrate) dataBitsPerFrame omitInvalidFrames

/-- Timestamps strictly increase along the entry list. -/
def strictIncr (l : List Entry) : Prop :=
  List.Pairwise (fun a b => a.1 < b.1) l

/-- The stored `startOfNextEntry` field agrees with `getStartOfNextEntry`
(it is a cache the python code keeps in sync). -/
def sneCorrect (c : Cursor) : Prop :=
  c.startOfNextEntry = c.getStartOfNextEntry

/-- Well-formedness of a reachable cursor: the index is in range, the cached
boundary is correct, the position lies in the interval of entry `curIndex`
(strictly before the next boundary except on the last entry). -/
def Cursor.WF (c : Cursor) : Prop :=
  c.curIndex < c.entries.length ∧ sneCorrect c ∧
    (c.entries.getD c.curIndex dEntry).1 ≤ c.curPosition ∧
    (c.curIndex + 1 < c.entries.length → c.curPosition < c.startOfNextEntry)

instance (l : List Entry) : Decidable (strictIncr l) := by
  unfold strictIncr; infer_instance

instance (c : Cursor) : Decidable (sneCorrect c) := by
  unfold sneCorrect; infer_instance

instance (c : Cursor) : Decidable c.WF := by
  unfold Cursor.WF; infer_instance

/-- Timestamp of the final (tail-guard) entry. -/
def lastTs (l : List Entry) : ℚ := (l.getD (l.length - 1) dEntry).1

/-- No two consecutive entries among the real (pre-tail-guard) entries share
a level; the last pair is exempt because `finishAdding` duplicates the final
level into the tail guard. -/
def realAdjDistinct (l : List Entry) : Prop :=
  ∀ i < l.length, i + 2 < l.length →
    (l.getD i dEntry).2 ≠ (l.getD (i + 1) dEntry).2

/-- Every stored level is 0 or 1 (a binary digital waveform). -/
def binaryLevels (l : List Entry) : Prop :=
  ∀ e ∈ l, e.2 = 0 ∨ e.2 = 1

instance (l : List Entry) : Decidable (realAdjDistinct l) := by
  unfold realAdjDistinct; infer_instance

instance (l : List Entry) : Decidable (binaryLevels l) := by
  unfold binaryLevels; infer_instance

@[simp] theorem Cursor.step_entries (c : Cursor) : c.step.entries = c.entries := rfl

@[simp] theorem Cursor.step_curIndex (c : Cursor) : c.step.curIndex = c.curIndex + 1 := rfl

@[simp] theorem Cursor.step_curPosition (c : Cursor) : c.step.curPosition = c.curPosition := rfl

/-- The step recomputes the cached boundary, so it is correct afterwards. -/
theorem Cursor.step_sneCorrect (c : Cursor) : sneCorrect c.step := rfl

/-- Everything `advanceLoop` guarantees about a normal return: the shared
entries are untouched, the index never decreases, the position moves by
exactly `advanceBy`, a correct cached boundary stays correct, an in-range
index stays in range, and the final position is strictly before the final
cached boundary (the loop exit condition). -/
theorem advanceLoop_ok_spec : ∀ (fuel : ℕ) (c : Cursor) (d : ℚ) (c2 : Cursor),
    Cursor.advanceLoop fuel c d = .ok c2 →
    c2.entries = c.entries ∧ c.curIndex ≤ c2.curIndex ∧
      c2.curPosition = c.curPosition + d ∧
      (sneCorrect c → sneCorrect c2) ∧
      (c.curIndex < c.entries.length → c2.curIndex < c.entries.length) ∧
      c2.curPosition < c2.startOfNextEntry := by
  intro fuel
  induction fuel with
  | zero => intro c d c2 h; simp [Cursor.advanceLoop] at h
  | succ n ih =>
    intro c d c2 h
    simp only [Cursor.advanceLoop] at h
    by_cases hc : c.curPosition + d ≥ c.startOfNextEntry
    · rw [if_pos hc] at h
      by_cases he : c.curIndex + 1 ≥ c.entries.length
      · rw [if_pos he] at h; exact absurd h (by simp)
      · rw [if_neg he] at h
        obtain ⟨h1, h2, h3, h4, h5, h6⟩ := ih _ _ _ h
        simp only [Cursor.step_entries, Cursor.step_curIndex, Cursor.step_curPosition] at h1 h2 h3 h5
        exact ⟨h1, by omega, h3, fun _ => h4 c.step_sneCorrect, fun _ => by omega, h6⟩
    · rw [if_neg hc] at h
      injection h with h
      subst h
      exact ⟨rfl, le_refl _, rfl, fun hs => hs, fun hlt => hlt, by simpa using not_le.mp hc⟩

/-- The advance loop never fails a python `assert`. -/
theorem advanceLoop_ne_assert : ∀ (fuel : ℕ) (c : Cursor) (d : ℚ),
    Cursor.advanceLoop fuel c d ≠ .error .assertFail := by
  intro fuel
  induction fuel with
  | zero => intro c d h; simp [Cursor.advanceLoop] at h
  | succ n ih =>
    intro c d h
    simp only [Cursor.advanceLoop] at h
    by_cases hc : c.curPosition + d ≥ c.startOfNextEntry
    · rw [if_pos hc] at h
      by_cases he : c.curIndex + 1 ≥ c.entries.length
      · rw [if_pos he] at h; exact absurd h (by simp)
      · rw [if_neg he] at h; exact ih _ _ h
    · rw [if_neg hc] at h; exact absurd h (by simp)

/-- The advance loop never raises a division error: no division happens
inside the cursor. -/
theorem advanceLoop_ne_zeroDiv : ∀ (fuel : ℕ) (c : Cursor) (d : ℚ),
    Cursor.advanceLoop fuel c d ≠ .error .zeroDiv := by
  intro fuel
  induction fuel with
  | zero => intro c d h; simp [Cursor.advanceLoop] at h
  | succ n ih =>
    intro c d h
    simp only [Cursor.advanceLoop] at h
    by_cases hc : c.curPosition + d ≥ c.startOfNextEntry
    · rw [if_pos hc] at h
      by_cases he : c.curIndex + 1 ≥ c.entries.length
      · rw [if_pos he] at h; exact absurd h (by simp)
      · rw [if_neg he] at h; exact ih _ _ h
    · rw [if_neg hc] at h; exact absurd h (by simp)

/-- With the fuel supplied at every call site (`length + 1`, for an index
not past the entry list) the loop never runs out of fuel: each iteration
increases the index, which is bounded by the length. -/
theorem advanceLoop_ne_fuel : ∀ (fuel : ℕ) (c : Cursor) (d : ℚ),
    c.curIndex ≤ c.entries.length → c.entries.length + 1 ≤ fuel + c.curIndex →
    Cursor.advanceLoop fuel c d ≠ .error .fuel := by
  intro fuel
  induction fuel with
  | zero => intro c d hle hf h; omega
  | succ n ih =>
    intro c d hle hf h
    simp only [Cursor.advanceLoop] at h
    by_cases hc : c.curPosition + d ≥ c.startOfNextEntry
    · rw [if_pos hc] at h
      by_cases he : c.curIndex + 1 ≥ c.entries.length
      · rw [if_pos he] at h; exact absurd h (by simp)
      · rw [if_neg he] at h
        exact ih c.step d (by simp; omega) (by simp; omega) h
    · rw [if_neg hc] at h; exact absurd h (by simp)

/-- If the advance target reaches or passes the cached boundary, the loop
takes at least one step, so the index strictly increases on a normal
return. -/
theorem advanceLoop_strict : ∀ (fuel : ℕ) (c : Cursor) (d : ℚ) (c2 : Cursor),
    c.startOfNextEntry ≤ c.curPosition + d →
    Cursor.advanceLoop fuel c d = .ok c2 → c.curIndex < c2.curIndex := by
  intro fuel
  cases fuel with
  | zero => intro c d c2 _ h; simp [Cursor.advanceLoop] at h
  | succ n =>
    intro c d c2 hge h
    simp only [Cursor.advanceLoop] at h
    rw [if_pos (by exact hge)] at h
    by_cases he : c.curIndex + 1 ≥ c.entries.length
    · rw [if_pos he] at h; exact absurd h (by simp)
    · rw [if_neg he] at h
      have := (advanceLoop_ok_spec _ _ _ _ h).2.1
      simp only [Cursor.step_curIndex] at this
      omega

/-- Along a strictly increasing entry list, timestamps are monotone in the
index. -/
theorem ts_mono {l : List Entry} (hs : strictIncr l) {i j : ℕ}
    (hij : i ≤ j) (hj : j < l.length) :
    (l.getD i dEntry).1 ≤ (l.getD j dEntry).1 := by
  rcases eq_or_lt_of_le hij with rfl | hlt
  · exact le_refl _
  · have hi : i < l.length := lt_trans hlt hj
    rw [List.getD_eq_getElem _ _ hi, List.getD_eq_getElem _ _ hj]
    exact le_of_lt (List.pairwise_iff_getElem.mp hs i j hi hj hlt)

/-- Part A of the tail-guard property: an advance whose target reaches or
passes the final entry's timestamp raises the out-of-range condition. -/
theorem advanceLoop_oor : ∀ (fuel : ℕ) (c : Cursor) (d : ℚ),
    strictIncr c.entries → sneCorrect c → c.curIndex < c.entries.length →
    c.entries.length + 1 ≤ fuel + c.curIndex →
    lastTs c.entries ≤ c.curPosition + d →
    Cursor.advanceLoop fuel c d = .error .oor := by
  intro fuel
  induction fuel with
  | zero => intro c d _ _ hlt hf _; omega
  | succ n ih =>
    intro c d hs hsne hlt hf hge
    have hcond : c.startOfNextEntry ≤ c.curPosition + d := by
      refine le_trans ?_ hge
      rw [hsne]
      unfold Cursor.getStartOfNextEntry lastTs
      by_cases hin : c.curIndex < c.entries.length - 1
      · rw [if_pos hin]
        exact ts_mono hs (by omega) (by omega)
      · rw [if_neg hin]
        exact ts_mono hs (by omega) (by omega)
    simp only [Cursor.advanceLoop]
    rw [if_pos (by exact hcond)]
    by_cases he : c.curIndex + 1 ≥ c.entries.length
    · rw [if_pos he]
    · rw [if_neg he]
      exact ih c.step d hs c.step_sneCorrect (by simp; omega) (by simp; omega)
        (by simpa using hge)

/-- Part B of the tail-guard property: an advance that returns normally
leaves the cursor strictly before the final entry, on an index at most
`length - 2`. -/
theorem advanceLoop_ok_tail : ∀ (fuel : ℕ) (c : Cursor) (d : ℚ) (c2 : Cursor),
    strictIncr c.entries → sneCorrect c → c.curIndex < c.entries.length →
    (c.entries.getD c.curIndex dEntry).1 ≤ c.curPosition + d →
    Cursor.advanceLoop fuel c d = .ok c2 →
    c2.curIndex + 2 ≤ c.entries.length ∧ c2.curPosition < lastTs c.entries := by
  intro fuel
  induction fuel with
  | zero => intro c d c2 _ _ _ _ h; simp [Cursor.advanceLoop] at h
  | succ n ih =>
    intro c d c2 hs hsne hlt hts h
    simp only [Cursor.advanceLoop] at h
    by_cases hc : c.curPosition + d ≥ c.startOfNextEntry
    · rw [if_pos hc] at h
      by_cases he : c.curIndex + 1 ≥ c.entries.length
      · rw [if_pos he] at h; exact absurd h (by simp)
      · rw [if_neg he] at h
        have hts2 : (c.entries.getD (c.curIndex + 1) dEntry).1 ≤ c.curPosition + d := by
          refine le_trans ?_ hc
          rw [hsne]
          unfold Cursor.getStartOfNextEntry
          rw [if_pos (by omega)]
        exact ih c.step d c2 hs c.step_sneCorrect (by simp; omega) (by simpa using hts2) h
    · rw [if_neg hc] at h
      injection h with h
      subst h
      push_neg at hc
      by_cases hin : c.curIndex + 1 < c.entries.length
      · have hsnev : c.startOfNextEntry = (c.entries.getD (c.curIndex + 1) dEntry).1 := by
          rw [hsne]; unfold Cursor.getStartOfNextEntry; rw [if_pos (by omega)]
        refine ⟨by dsimp only; omega, ?_⟩
        dsimp only
        calc c.curPosition + d < c.startOfNextEntry := hc
          _ = (c.entries.getD (c.curIndex + 1) dEntry).1 := hsnev
          _ ≤ lastTs c.entries := ts_mono hs (by omega) (by omega)
      · have hsnev : c.startOfNextEntry = (c.entries.getD c.curIndex dEntry).1 := by
          rw [hsne]; unfold Cursor.getStartOfNextEntry; rw [if_neg (by omega)]
        rw [hsnev] at hc
        exact absurd (lt_of_le_of_lt hts hc) (lt_irrefl _)

/-- Along a strictly increasing entry list, timestamps at distinct indices
compare strictly. -/
theorem ts_strict {l : List Entry} (hs : strictIncr l) {i j : ℕ}
    (hij : i < j) (hj : j < l.length) :
    (l.getD i dEntry).1 < (l.getD j dEntry).1 := by
  have hi : i < l.length := lt_trans hij hj
  rw [List.getD_eq_getElem _ _ hi, List.getD_eq_getElem _ _ hj]
  exact List.pairwise_iff_getElem.mp hs i j hi hj hij

/-- Exact behaviour of the boundary-gap advance
`advance(startOfNextEntry - curPosition)` used twice inside
`advanceUntilChangeTo`: it lands exactly on the next entry when that entry
is not the last one, and raises out-of-range otherwise. -/
theorem advance_boundary_spec (c : Cursor) (hs : strictIncr c.entries)
    (hsne : sneCorrect c) (hlt : c.curIndex < c.entries.length) :
    (c.curIndex + 2 < c.entries.length →
      c.advance (c.startOfNextEntry - c.curPosition) =
        .ok ⟨c.entries, c.curIndex + 1, (c.entries.getD (c.curIndex + 1) dEntry).1,
          (c.entries.getD (c.curIndex + 2) dEntry).1⟩) ∧
    (c.entries.length ≤ c.curIndex + 2 →
      c.advance (c.startOfNextEntry - c.curPosition) = .error .oor) := by
  constructor
  · intro hin
    have hsnev : c.startOfNextEntry = (c.entries.getD (c.curIndex + 1) dEntry).1 := by
      rw [hsne]; unfold Cursor.getStartOfNextEntry; rw [if_pos (by omega)]
    unfold Cursor.advance
    simp only [Cursor.advanceLoop]
    rw [if_pos (by exact le_of_eq (by ring)), if_neg (by omega)]
    obtain ⟨m, hm⟩ : ∃ m, c.entries.length = m + 1 := ⟨c.entries.length - 1, by omega⟩
    rw [hm]
    have hstep : c.step.startOfNextEntry = (c.entries.getD (c.curIndex + 2) dEntry).1 := by
      show c.step.getStartOfNextEntry = _
      unfold Cursor.getStartOfNextEntry
      simp only [Cursor.step_entries, Cursor.step_curIndex]
      rw [if_pos (by omega)]
    simp only [Cursor.advanceLoop]
    rw [if_neg ?_]
    · show Except.ok _ = _
      congr 1
      refine Cursor.ext rfl rfl ?_ ?_
      · show c.curPosition + (c.startOfNextEntry - c.curPosition) = _
        rw [hsnev]; ring
      · exact hstep
    · rw [hstep]
      simp only [Cursor.step_curPosition]
      have : c.curPosition + (c.startOfNextEntry - c.curPosition) =
          (c.entries.getD (c.curIndex + 1) dEntry).1 := by rw [hsnev]; ring
      rw [this]
      exact not_le.mpr (ts_strict hs (by omega) (by omega))
  · intro hout
    refine advanceLoop_oor _ c _ hs hsne hlt (by omega) ?_
    have : c.curPosition + (c.startOfNextEntry - c.curPosition) = c.startOfNextEntry := by ring
    rw [this, hsne]
    unfold Cursor.getStartOfNextEntry lastTs
    by_cases hin : c.curIndex < c.entries.length - 1
    · rw [if_pos hin]
      exact ts_mono hs (by omega) (by omega)
    · rw [if_neg hin]
      exact ts_mono hs (by omega) (by omega)


/-- Full case analysis of `advanceUntilChangeTo` over a well-formed cursor:
it raises out-of-range, or lands exactly on the next entry (when its level
already matches), or on the entry after it (recording that the skipped
entry's level did not match).  Either way a normal return rests on a
non-tail entry, positioned exactly on its timestamp. -/
theorem aUCT_spec (c : Cursor) (v : ℤ) (hs : strictIncr c.entries)
    (hsne : sneCorrect c) :
    c.advanceUntilChangeTo v = .error .oor ∨
    (∃ c2, c.advanceUntilChangeTo v = .ok c2 ∧ c2.entries = c.entries ∧
      sneCorrect c2 ∧ c.curIndex < c2.curIndex ∧
      c2.curIndex + 2 ≤ c.entries.length ∧
      c2.curPosition = (c.entries.getD c2.curIndex dEntry).1 ∧
      (c2.getValue = v ∨
        (c2.curIndex = c.curIndex + 2 ∧
          (c.entries.getD (c.curIndex + 1) dEntry).2 ≠ v))) := by
  by_cases hend : c.curIndex ≥ c.entries.length
  · left
    unfold Cursor.advanceUntilChangeTo
    rw [if_pos hend]
  · have hlt : c.curIndex < c.entries.length := by omega
    obtain ⟨hok, hoor⟩ := advance_boundary_spec c hs hsne hlt
    unfold Cursor.advanceUntilChangeTo
    rw [if_neg hend]
    by_cases h2 : c.curIndex + 2 < c.entries.length
    · rw [hok h2]
      dsimp only
      rw [if_neg (show ¬(c.curIndex + 1 = c.curIndex) by omega)]
      have hgv : (Cursor.getValue ⟨c.entries, c.curIndex + 1,
          (c.entries.getD (c.curIndex + 1) dEntry).1,
          (c.entries.getD (c.curIndex + 2) dEntry).1⟩) =
          (c.entries.getD (c.curIndex + 1) dEntry).2 := rfl
      have hsne1 : sneCorrect ⟨c.entries, c.curIndex + 1,
          (c.entries.getD (c.curIndex + 1) dEntry).1,
          (c.entries.getD (c.curIndex + 2) dEntry).1⟩ := by
        unfold sneCorrect Cursor.getStartOfNextEntry
        dsimp only
        rw [if_pos (by omega)]
      by_cases hv : (c.entries.getD (c.curIndex + 1) dEntry).2 = v
      · rw [if_neg (by rw [hgv]; simpa using hv)]
        right
        refine ⟨_, rfl, rfl, hsne1,
          show c.curIndex < c.curIndex + 1 by omega,
          show c.curIndex + 1 + 2 ≤ c.entries.length by omega,
          rfl, Or.inl (by rw [hgv]; exact hv)⟩
      · rw [if_pos (by rw [hgv]; simpa using hv)]
        obtain ⟨hok2, hoor2⟩ := advance_boundary_spec
          ⟨c.entries, c.curIndex + 1, (c.entries.getD (c.curIndex + 1) dEntry).1,
            (c.entries.getD (c.curIndex + 2) dEntry).1⟩ hs hsne1
          (show c.curIndex + 1 < c.entries.length by omega)
        by_cases h3 : c.curIndex + 3 < c.entries.length
        · rw [hok2 (show c.curIndex + 1 + 2 < c.entries.length by omega)]
          right
          refine ⟨_, rfl, rfl, ?_,
            show c.curIndex < c.curIndex + 1 + 1 by omega,
            show c.curIndex + 1 + 1 + 2 ≤ c.entries.length by omega,
            rfl, Or.inr ⟨rfl, hv⟩⟩
          unfold sneCorrect Cursor.getStartOfNextEntry
          dsimp only
          rw [if_pos (by omega)]
        · left
          exact hoor2 (show c.entries.length ≤ c.curIndex + 1 + 2 by omega)
    · rw [hoor (by omega)]
      left
      rfl


/-- Levels read through `getD` at in-range indices are binary. -/
theorem binaryLevels_getD {l : List Entry} (hb : binaryLevels l) {i : ℕ}
    (hi : i < l.length) : (l.getD i dEntry).2 = 0 ∨ (l.getD i dEntry).2 = 1 := by
  rw [List.getD_eq_getElem _ _ hi]
  exact hb _ (l.getElem_mem hi)


/-- C10 (confirmed).  For every well-formed cursor over a finalized channel
(strictly increasing timestamps, correct cached boundary, index in range,
position at or after the current entry) and every non-negative advance
amount: an advance whose target position reaches or passes the final
(tail-guard) entry's timestamp raises the out-of-range condition, and an
advance that returns normally leaves the index at most `length - 2` and the
position strictly before the final entry's timestamp — the cursor never
rests inside the final entry's interval. -/
theorem advance_never_rests_in_tail (c : Cursor) (d : ℚ)
    (hs : strictIncr c.entries) (hsne : sneCorrect c)
    (hlt : c.curIndex < c.entries.length)
    (hpos : (c.entries.getD c.curIndex dEntry).1 ≤ c.curPosition)
    (hd : 0 ≤ d) :
    (lastTs c.entries ≤ c.curPosition + d → c.advance d = .error .oor) ∧
    (∀ c2, c.advance d = .ok c2 →
      c2.curIndex + 2 ≤ c.entries.length ∧ c2.curPosition < lastTs c.entries) := by
  constructor
  · intro hge
    exact advanceLoop_oor _ c d hs hsne hlt (by omega) hge
  · intro c2 h
    exact advanceLoop_ok_tail _ c d c2 hs hsne hlt (by linarith) h

attribute [local semireducible] Rat.add Rat.sub Rat.mul Rat.inv in
/-- Witness for C10 at a concrete finalized channel: from the initial
cursor, advancing by 13 reaches the tail timestamp and raises out-of-range,
while advancing by 5/2 returns normally resting on index 2 before the
tail. -/
theorem advance_never_rests_in_tail_witness :
    strictIncr [((0:ℚ),(0:ℤ)),(1,1),(2,0),(3,1),(13,1)] ∧
    sneCorrect ⟨[((0:ℚ),(0:ℤ)),(1,1),(2,0),(3,1),(13,1)], 0, 0, 1⟩ ∧
    Cursor.advance ⟨[((0:ℚ),(0:ℤ)),(1,1),(2,0),(3,1),(13,1)], 0, 0, 1⟩ 13 =
      .error .oor ∧
    Cursor.advance ⟨[((0:ℚ),(0:ℤ)),(1,1),(2,0),(3,1),(13,1)], 0, 0, 1⟩ (5/2) =
      .ok ⟨[((0:ℚ),(0:ℤ)),(1,1),(2,0),(3,1),(13,1)], 2, 5/2, 3⟩ ∧
    2 + 2 ≤ ([((0:ℚ),(0:ℤ)),(1,1),(2,0),(3,1),(13,1)] : List Entry).length ∧
    (5/2 : ℚ) < lastTs [((0:ℚ),(0:ℤ)),(1,1),(2,0),(3,1),(13,1)] := by
  refine ⟨by decide, by decide, ?_, by decide, by decide, by decide⟩
  exact (advance_never_rests_in_tail _ 13 (by decide) (by decide) (by decide)
    (by decide) (by decide)).1 (by decide)


/-- C2 (corrected).  Over a finalized binary waveform (strictly increasing
timestamps, runs coalesced among the real entries, all levels 0/1) and a
binary target level, `advanceUntilChangeTo` either raises out-of-range or
returns with `value() == targetValue`.  The restriction to binary levels
and targets is forced: with a target such as 2 the python code returns
normally with the wrong level (see the counterexample). -/
theorem advanceUntilChangeTo_lands_on_target (c : Cursor) (v : ℤ)
    (hs : strictIncr c.entries) (hadj : realAdjDistinct c.entries)
    (hb : binaryLevels c.entries) (hv : v = 0 ∨ v = 1)
    (hsne : sneCorrect c) :
    (c.advanceUntilChangeTo v).map Cursor.getValue = .ok v ∨
    c.advanceUntilChangeTo v = .error .oor := by
  rcases aUCT_spec c v hs hsne with hoor | ⟨c2, hok, hent, _, _, hlen, _, hval⟩
  · right; exact hoor
  · left
    rw [hok]
    simp only [Except.map]
    congr 1
    rcases hval with hval | ⟨hidx, hne⟩
    · exact hval
    · have hgv : c2.getValue = (c.entries.getD c2.curIndex dEntry).2 := by
        unfold Cursor.getValue; rw [hent]
      have hdist : (c.entries.getD (c.curIndex + 1) dEntry).2 ≠
          (c.entries.getD (c.curIndex + 2) dEntry).2 :=
        hadj (c.curIndex + 1) (by omega) (by omega)
      rw [hidx] at hgv
      have hb1 := binaryLevels_getD hb (show c.curIndex + 1 < c.entries.length by omega)
      have hb2 := binaryLevels_getD hb (show c.curIndex + 2 < c.entries.length by omega)
      rw [hgv]
      omega

attribute [local semireducible] Rat.add Rat.sub Rat.mul Rat.inv in
/-- Counterexample to C2 as stated: over the finalized channel
`[(0,0),(1,1),(2,0),(3,1),(13,1)]` (built by adds and `finishAdding 10`),
`advanceUntilChangeTo(2)` from the initial cursor returns normally with
`value() == 0`, not 2, and raises nothing. -/
theorem advanceUntilChangeTo_wrong_level_cex :
    Channel.finishAdding [((0:ℚ),(0:ℤ)),(1,1),(2,0),(3,1)] 10 =
      some [((0:ℚ),(0:ℤ)),(1,1),(2,0),(3,1),(13,1)] ∧
    Cursor.initFor [((0:ℚ),(0:ℤ)),(1,1),(2,0),(3,1),(13,1)] =
      some ⟨[((0:ℚ),(0:ℤ)),(1,1),(2,0),(3,1),(13,1)], 0, 0, 1⟩ ∧
    (Cursor.advanceUntilChangeTo
        ⟨[((0:ℚ),(0:ℤ)),(1,1),(2,0),(3,1),(13,1)], 0, 0, 1⟩ 2).map
      Cursor.getValue = .ok 0 ∧
    ((0:ℤ) ≠ 2) := by
  refine ⟨by decide, by decide, by decide, by decide⟩

attribute [local semireducible] Rat.add Rat.sub Rat.mul Rat.inv in
/-- Witness for C2 (amended) on the same concrete channel with target 0:
the hypotheses hold by evaluation and the call lands on level 0. -/
theorem advanceUntilChangeTo_lands_on_target_witness :
    strictIncr [((0:ℚ),(0:ℤ)),(1,1),(2,0),(3,1),(13,1)] ∧
    realAdjDistinct [((0:ℚ),(0:ℤ)),(1,1),(2,0),(3,1),(13,1)] ∧
    binaryLevels [((0:ℚ),(0:ℤ)),(1,1),(2,0),(3,1),(13,1)] ∧
    sneCorrect ⟨[((0:ℚ),(0:ℤ)),(1,1),(2,0),(3,1),(13,1)], 0, 0, 1⟩ ∧
    ((Cursor.advanceUntilChangeTo
          ⟨[((0:ℚ),(0:ℤ)),(1,1),(2,0),(3,1),(13,1)], 0, 0, 1⟩ 0).map
        Cursor.getValue = .ok 0 ∨
      Cursor.advanceUntilChangeTo
          ⟨[((0:ℚ),(0:ℤ)),(1,1),(2,0),(3,1),(13,1)], 0, 0, 1⟩ 0 = .error .oor) := by
  refine ⟨by decide, by decide, by decide, by decide, ?_⟩
  exact advanceUntilChangeTo_lands_on_target _ 0 (by decide) (by decide) (by decide)
    (Or.inl rfl) (by decide)


/-- Helper for C4: the out-of-range raised by the first
`advanceUntilChangeTo` inside the recognizer body is caught by the outer
loop, which ends the frame sequence normally. -/
theorem recognizeIter_oor_of_aUCT (c : Cursor) (bp : ℚ) (bits : ℕ) (om : Bool)
    (h : c.advanceUntilChangeTo 0 = .error .oor) :
    recognizeIter c bp bits om = .error .oor := by
  unfold recognizeIter
  rw [h]

/-- C4 (corrected).  A channel with a single real entry, finalized with any
positive tail length, makes the recognizer's first `advanceUntilChangeTo`
raise out-of-range; the recognizer catches it at its outer loop and yields
the empty frame sequence — it terminates normally instead of propagating a
failure to its caller.  (The baud rate is restricted to nonzero values:
at baud 0 the recognizer dies computing the bit period, before the seek.) -/
theorem recognizeUART_single_real_entry (t0 tl : ℚ) (v : ℤ) (fin : List Entry)
    (baud : ℚ) (bits : ℕ) (om : Bool) (htl : 0 < tl) (hbaud : baud ≠ 0)
    (hfin : Channel.finishAdding [(t0, v)] tl = some fin) :
    recognizeUART fin baud bits om = .ok [] := by
  have hfin2 : fin = [(t0, v), (t0 + tl, v)] := by
    unfold Channel.finishAdding at hfin
    rw [if_pos htl] at hfin
    simp only [List.getLast?_singleton, Option.some.injEq, List.singleton_append] at hfin
    exact hfin.symm
  subst hfin2
  have hs : strictIncr [(t0, v), (t0 + tl, v)] := by
    unfold strictIncr
    refine List.Pairwise.cons ?_ (List.pairwise_singleton _ _)
    intro b hb
    simp only [List.mem_singleton] at hb
    rw [hb]
    show t0 < t0 + tl
    linarith
  have hsne : sneCorrect (⟨[(t0, v), (t0 + tl, v)], 0, t0, t0 + tl⟩ : Cursor) := rfl
  have hoor : Cursor.advanceUntilChangeTo
      ⟨[(t0, v), (t0 + tl, v)], 0, t0, t0 + tl⟩ 0 = .error .oor := by
    rcases aUCT_spec ⟨[(t0, v), (t0 + tl, v)], 0, t0, t0 + tl⟩ 0 hs hsne with
      hoor | ⟨c2, _, _, _, hlt2, hlen2, _⟩
    · exact hoor
    · exfalso
      have h1 : (0:ℕ) < c2.curIndex := hlt2
      have h2 : c2.curIndex + 2 ≤ 2 := hlen2
      omega
  show recognizeUART [(t0, v), (t0 + tl, v)] baud bits om = .ok []
  unfold recognizeUART
  rw [show Cursor.initFor [(t0, v), (t0 + tl, v)] =
    some ⟨[(t0, v), (t0 + tl, v)], 0, t0, t0 + tl⟩ from rfl]
  dsimp only
  rw [if_neg hbaud]
  show recognizeLoop ([(t0, v), (t0 + tl, v)].length + 1)
    ⟨[(t0, v), (t0 + tl, v)], 0, t0, t0 + tl⟩ (1 / baud) bits om = .ok []
  rw [recognizeLoop]
  rw [recognizeIter_oor_of_aUCT _ _ _ _ hoor]

attribute [local semireducible] Rat.add Rat.sub Rat.mul Rat.inv in
/-- Counterexample to C4 as stated: for the finalized single-real-entry
channel `[(0,1),(10,1)]` the recognizer returns the empty frame sequence
normally; no out-of-range condition reaches the caller. -/
theorem recognizeUART_single_real_entry_cex :
    Channel.finishAdding [((0:ℚ),(1:ℤ))] 10 = some [((0:ℚ),(1:ℤ)),(10,1)] ∧
    recognizeUART [((0:ℚ),(1:ℤ)),(10,1)] 9600 8 true = .ok [] := by
  refine ⟨by decide, by decide⟩

attribute [local semireducible] Rat.add Rat.sub Rat.mul Rat.inv in
/-- Witness for C4 (amended) at tail length 10 and a concrete entry. -/
theorem recognizeUART_single_real_entry_witness :
    (0:ℚ) < 10 ∧ (2400:ℚ) ≠ 0 ∧
    Channel.finishAdding [((3:ℚ),(1:ℤ))] 10 = some [((3:ℚ),(1:ℤ)),(13,1)] ∧
    recognizeUART [((3:ℚ),(1:ℤ)),(13,1)] 2400 8 false = .ok [] := by
  refine ⟨by decide, by decide, by decide, ?_⟩
  exact recognizeUART_single_real_entry 3 10 1 _ 2400 8 false (by decide) (by decide)
    (by decide)


/-- C7 (corrected).  With any strictly positive tail length, finalizing a
channel that holds zero real entries fails (the python `assert` on
non-emptiness fires).  The restriction to positive tail lengths is forced:
with `tailLength = 0` the guard `tailLength > 0.0` is false and the empty
channel is frozen successfully (see the counterexample). -/
theorem finishAdding_empty_fails (tl : ℚ) (htl : 0 < tl) :
    Channel.finishAdding [] tl = none := by
  unfold Channel.finishAdding
  rw [if_pos htl]
  rfl

/-- Counterexample to C7 as stated: at `tailLength = 0` finalizing the
empty channel does not fail — it returns the frozen empty sequence. -/
theorem finishAdding_empty_zero_tail_cex :
    Channel.finishAdding [] 0 = some [] := by decide

/-- Witness for C7 (amended) at tail length 10. -/
theorem finishAdding_empty_fails_witness :
    (0:ℚ) < 10 ∧ Channel.finishAdding [] 10 = none :=
  ⟨by decide, finishAdding_empty_fails 10 (by decide)⟩

/-- C8 (corrected).  Appending a level equal to the last stored level is
silently dropped — provided the timestamp is strictly greater than the last
stored timestamp.  The timestamp restriction is forced: the python code
checks `assert(eventTS > prev[0])` before comparing levels, so a repeated
level with a non-increasing timestamp fails instead of being dropped (see
the counterexample). -/
theorem add_same_level_noop (entries : List Entry) (t0 ts : ℚ) (v : ℤ)
    (hlast : entries.getLast? = some (t0, v)) (hts : t0 < ts) :
    Channel.add entries ts v = some entries := by
  unfold Channel.add
  rw [hlast]
  dsimp only
  rw [if_pos (by exact hts)]
  rw [if_neg (by simp)]

/-- Counterexample to C8 as stated: on the channel `[(0,1)]`, re-adding
level 1 at the non-increasing timestamp 0 is not silently dropped — the
timestamp assert fires and the call fails. -/
theorem add_same_level_noop_cex :
    Channel.add [((0:ℚ),(1:ℤ))] 0 1 = none := by decide

/-- Witness for C8 (amended) on the channel `[(0,1)]` at timestamp 5. -/
theorem add_same_level_noop_witness :
    ([((0:ℚ),(1:ℤ))] : List Entry).getLast? = some (0, 1) ∧ (0:ℚ) < 5 ∧
    Channel.add [((0:ℚ),(1:ℤ))] 5 1 = some [((0:ℚ),(1:ℤ))] :=
  ⟨by decide, by decide, add_same_level_noop _ 0 5 1 (by decide) (by decide)⟩


/-- One successful `add` preserves the build invariant: timestamps chain
strictly upward and adjacent stored levels differ. -/
theorem add_preserves_inv (entries entries2 : List Entry) (ts : ℚ) (v : ℤ)
    (hts : List.Chain' (fun a b => a.1 < b.1) entries)
    (hlv : List.Chain' (fun a b => a.2 ≠ b.2) entries)
    (h : Channel.add entries ts v = some entries2) :
    List.Chain' (fun a b => a.1 < b.1) entries2 ∧
    List.Chain' (fun a b => a.2 ≠ b.2) entries2 := by
  unfold Channel.add at h
  rcases hl : entries.getLast? with _ | prev
  · rw [hl] at h
    dsimp only at h
    have : entries = [] := List.getLast?_eq_none_iff.mp hl
    subst this
    injection h with h
    subst h
    exact ⟨List.chain'_singleton _, List.chain'_singleton _⟩
  · rw [hl] at h
    dsimp only at h
    by_cases h1 : ts > prev.1
    · rw [if_pos h1] at h
      by_cases h2 : v ≠ prev.2
      · rw [if_pos h2] at h
        injection h with h
        subst h
        constructor
        · refine List.chain'_append.mpr ⟨hts, List.chain'_singleton _, ?_⟩
          intro x hx y hy
          rw [hl] at hx
          simp only [Option.mem_def, Option.some.injEq] at hx
          simp only [List.head?_cons, Option.mem_def, Option.some.injEq] at hy
          subst hx; subst hy
          exact h1
        · refine List.chain'_append.mpr ⟨hlv, List.chain'_singleton _, ?_⟩
          intro x hx y hy
          rw [hl] at hx
          simp only [Option.mem_def, Option.some.injEq] at hx
          simp only [List.head?_cons, Option.mem_def, Option.some.injEq] at hy
          subst hx; subst hy
          exact fun hc => h2 hc.symm
      · rw [if_neg h2] at h
        injection h with h
        subst h
        exact ⟨hts, hlv⟩
    · rw [if_neg h1] at h
      exact absurd h (by simp)

/-- The build invariant holds for every channel produced by a sequence of
successful `add` calls. -/
theorem buildFrom_inv : ∀ (inputs : List (ℚ × ℤ)) (entries res : List Entry),
    List.Chain' (fun a b => a.1 < b.1) entries →
    List.Chain' (fun a b => a.2 ≠ b.2) entries →
    Channel.buildFrom entries inputs = some res →
    List.Chain' (fun a b => a.1 < b.1) res ∧
    List.Chain' (fun a b => a.2 ≠ b.2) res := by
  intro inputs
  induction inputs with
  | nil =>
    intro entries res hts hlv h
    injection h with h
    subst h
    exact ⟨hts, hlv⟩
  | cons p rest ih =>
    intro entries res hts hlv h
    obtain ⟨ts, v⟩ := p
    unfold Channel.buildFrom at h
    rcases ha : Channel.add entries ts v with _ | entries2
    · rw [ha] at h; exact absurd h (by simp)
    · rw [ha] at h
      dsimp only at h
      obtain ⟨hts2, hlv2⟩ := add_preserves_inv entries entries2 ts v hts hlv ha
      exact ih entries2 res hts2 hlv2 h

/-- C3 (corrected).  For every channel built by successful `add` calls and
finalized by `finishAdding`, the stored timestamps strictly increase
throughout, and no two consecutive entries share a level except possibly
the final pair: with a positive tail length the synthetic tail entry
repeats the last real level, so the claim's no-equal-adjacent-levels
property holds for all entries only up to (and excluding) the tail guard
(see the counterexample). -/
theorem buildFinish_invariant (inputs : List (ℚ × ℤ)) (tl : ℚ)
    (res fin : List Entry)
    (hb : Channel.buildFrom [] inputs = some res)
    (hf : Channel.finishAdding res tl = some fin) :
    strictIncr fin ∧ List.Chain' (fun a b => a.2 ≠ b.2) fin.dropLast := by
  obtain ⟨hts, hlv⟩ := buildFrom_inv inputs [] res (List.chain'_nil) (List.chain'_nil) hb
  haveI : IsTrans Entry (fun a b => a.1 < b.1) := ⟨fun _ _ _ hab hbc => lt_trans hab hbc⟩
  unfold Channel.finishAdding at hf
  by_cases htl : tl > 0
  · rw [if_pos htl] at hf
    rcases hl : res.getLast? with _ | prev
    · rw [hl] at hf; exact absurd hf (by simp)
    · rw [hl] at hf
      dsimp only at hf
      injection hf with hf
      subst hf
      constructor
      · rw [strictIncr, ← List.chain'_iff_pairwise]
        refine List.chain'_append.mpr ⟨hts, List.chain'_singleton _, ?_⟩
        intro x hx y hy
        rw [hl] at hx
        simp only [Option.mem_def, Option.some.injEq] at hx
        simp only [List.head?_cons, Option.mem_def, Option.some.injEq] at hy
        subst hx; subst hy
        show prev.1 < prev.1 + tl
        linarith
      · rw [List.dropLast_concat]
        exact hlv
  · rw [if_neg htl] at hf
    injection hf with hf
    subst hf
    rw [strictIncr, ← List.chain'_iff_pairwise]
    exact ⟨hts, hlv.prefix (List.dropLast_prefix _)⟩

attribute [local semireducible] Rat.add Rat.sub Rat.mul Rat.inv in
/-- Counterexample to C3 as stated: building the channel from the single
event `(0,1)` and finalizing it with the default tail length 10 stores
`[(0,1),(10,1)]`, whose two consecutive entries share level 1. -/
theorem buildFinish_invariant_cex :
    Channel.buildFrom [] [((0:ℚ),(1:ℤ))] = some [((0:ℚ),(1:ℤ))] ∧
    Channel.finishAdding [((0:ℚ),(1:ℤ))] 10 = some [((0:ℚ),(1:ℤ)),(10,1)] ∧
    ¬ List.Chain' (fun a b => a.2 ≠ b.2) [((0:ℚ),(1:ℤ)),(10,1)] := by
  refine ⟨by decide, by decide, ?_⟩
  intro h
  exact (List.chain'_cons.mp h).1 rfl

attribute [local semireducible] Rat.add Rat.sub Rat.mul Rat.inv in
/-- Witness for C3 (amended) on a two-event build finalized with tail 10. -/
theorem buildFinish_invariant_witness :
    Channel.buildFrom [] [((0:ℚ),(0:ℤ)),(1,1)] = some [((0:ℚ),(0:ℤ)),(1,1)] ∧
    Channel.finishAdding [((0:ℚ),(0:ℤ)),(1,1)] 10 =
      some [((0:ℚ),(0:ℤ)),(1,1),(11,1)] ∧
    strictIncr [((0:ℚ),(0:ℤ)),(1,1),(11,1)] ∧
    List.Chain' (fun a b => a.2 ≠ b.2)
      ([((0:ℚ),(0:ℤ)),(1,1),(11,1)] : List Entry).dropLast := by
  refine ⟨by decide, by decide, ?_, ?_⟩
  · exact (buildFinish_invariant [((0:ℚ),(0:ℤ)),(1,1)] 10 [((0:ℚ),(0:ℤ)),(1,1)]
      [((0:ℚ),(0:ℤ)),(1,1),(11,1)] (by decide) (by decide)).1
  · exact (buildFinish_invariant [((0:ℚ),(0:ℤ)),(1,1)] 10 [((0:ℚ),(0:ℤ)),(1,1)]
      [((0:ℚ),(0:ℤ)),(1,1),(11,1)] (by decide) (by decide)).2


/-- A sequence of `advance` calls never changes the shared entries tuple. -/
theorem advanceSeq_entries : ∀ (ds : List ℚ) (c c2 : Cursor),
    c.advanceSeq ds = .ok c2 → c2.entries = c.entries := by
  intro ds
  induction ds with
  | nil =>
    intro c c2 h
    injection h with h
    subst h
    rfl
  | cons d rest ih =>
    intro c c2 h
    unfold Cursor.advanceSeq at h
    rcases ha : c.advance d with e | c3
    · rw [ha] at h; exact absurd h (by simp)
    · rw [ha] at h
      dsimp only at h
      have h3 : c3.entries = c.entries := (advanceLoop_ok_spec _ _ _ _ ha).1
      rw [ih c3 c2 h, h3]

/-- C9 (confirmed).  A clone (`copy.copy`) copies the scalar cursor fields
and shares the read-only entries tuple, and advancing only the clone —
cursor operations being pure state transformers here — leaves the
original's position, index and cached boundary unchanged while every
cursor reachable from the clone still shares the same entries. -/
theorem clone_shares_entries_preserves_original (c : Cursor) (ds : List ℚ) :
    (Cursor.clone c).entries = c.entries ∧
    (Cursor.clone c).curIndex = c.curIndex ∧
    (Cursor.clone c).curPosition = c.curPosition ∧
    (Cursor.clone c).startOfNextEntry = c.startOfNextEntry ∧
    (∀ c2, (Cursor.clone c).advanceSeq ds = .ok c2 → c2.entries = c.entries) :=
  ⟨rfl, rfl, rfl, rfl, fun c2 h => advanceSeq_entries ds (Cursor.clone c) c2 h⟩

attribute [local semireducible] Rat.add Rat.sub Rat.mul Rat.inv in
/-- Witness for C9: advancing a clone of a concrete cursor by 1 and then
3/2 moves the clone to index 2 while its entries stay the shared list. -/
theorem clone_shares_entries_preserves_original_witness :
    (Cursor.clone ⟨[((0:ℚ),(0:ℤ)),(1,1),(2,0),(3,1),(13,1)], 0, 0, 1⟩).curPosition = 0 ∧
    Cursor.advanceSeq (Cursor.clone ⟨[((0:ℚ),(0:ℤ)),(1,1),(2,0),(3,1),(13,1)], 0, 0, 1⟩)
      [1, 3/2] = .ok ⟨[((0:ℚ),(0:ℤ)),(1,1),(2,0),(3,1),(13,1)], 2, 5/2, 3⟩ ∧
    (⟨[((0:ℚ),(0:ℤ)),(1,1),(2,0),(3,1),(13,1)], 2, 5/2, 3⟩ : Cursor).entries =
      [((0:ℚ),(0:ℤ)),(1,1),(2,0),(3,1),(13,1)] := by
  refine ⟨by decide, by decide, ?_⟩
  exact (clone_shares_entries_preserves_original
      ⟨[((0:ℚ),(0:ℤ)),(1,1),(2,0),(3,1),(13,1)], 0, 0, 1⟩ [1, 3/2]).2.2.2.2
    ⟨[((0:ℚ),(0:ℤ)),(1,1),(2,0),(3,1),(13,1)], 2, 5/2, 3⟩ (by decide)

attribute [local semireducible] Rat.add Rat.sub Rat.mul Rat.inv in
/-- C1 (confirmed).  The waveform idle-high from time 0 with the falling
start edge at time 1, encoding byte 0x41 at 9600 baud — start bit 0 for one
bit period, data bits LSB-first 1,0,0,0,0,0,1,0 each one bit period, stop
bit 1 — built by `add` calls and finalized with the default tail 10, is
decoded by `recognizeUART` at baud 9600 with 8 data bits into exactly one
frame `(1, 65, true)`: byte value 65, valid, timestamped at the falling
start-bit edge. -/
theorem recognizeUART_decodes_byte_A :
    Channel.buildFrom [] [((0:ℚ),(1:ℤ)),(1,0),(1+1/9600,1),(1+2/9600,0),
        (1+7/9600,1),(1+8/9600,0),(1+9/9600,1)] =
      some [((0:ℚ),(1:ℤ)),(1,0),(1+1/9600,1),(1+2/9600,0),
        (1+7/9600,1),(1+8/9600,0),(1+9/9600,1)] ∧
    Channel.finishAdding [((0:ℚ),(1:ℤ)),(1,0),(1+1/9600,1),(1+2/9600,0),
        (1+7/9600,1),(1+8/9600,0),(1+9/9600,1)] 10 =
      some [((0:ℚ),(1:ℤ)),(1,0),(1+1/9600,1),(1+2/9600,0),
        (1+7/9600,1),(1+8/9600,0),(1+9/9600,1),(11+9/9600,1)] ∧
    recognizeUART [((0:ℚ),(1:ℤ)),(1,0),(1+1/9600,1),(1+2/9600,0),
        (1+7/9600,1),(1+8/9600,0),(1+9/9600,1),(11+9/9600,1)] 9600 8 true =
      .ok [(1, 65, true)] := by
  refine ⟨by decide, by decide, by decide⟩


/-- An advance from an index not past the entries either raises out-of-range
or returns normally — the fuel and assert errors are unreachable. -/
theorem advance_cases (c : Cursor) (d : ℚ) (h : c.curIndex ≤ c.entries.length) :
    c.advance d = .error .oor ∨ ∃ c2, c.advance d = .ok c2 := by
  rcases hr : c.advance d with e | c2
  · rcases e with _ | _ | _ | _
    · left; rfl
    · exact absurd hr (advanceLoop_ne_assert _ _ _)
    · exact absurd hr (advanceLoop_ne_zeroDiv _ _ _)
    · exact absurd hr (advanceLoop_ne_fuel _ _ _ h (by omega))
  · right; exact ⟨c2, rfl⟩

/-- The advance loop leaves the position at or after the entry it rests on,
provided the target lies at or after the entry it starts from. -/
theorem advanceLoop_pos_after : ∀ (fuel : ℕ) (c : Cursor) (d : ℚ) (c2 : Cursor),
    sneCorrect c → c.curIndex < c.entries.length →
    (c.entries.getD c.curIndex dEntry).1 ≤ c.curPosition + d →
    Cursor.advanceLoop fuel c d = .ok c2 →
    (c2.entries.getD c2.curIndex dEntry).1 ≤ c2.curPosition := by
  intro fuel
  induction fuel with
  | zero => intro c d c2 _ _ _ h; simp [Cursor.advanceLoop] at h
  | succ n ih =>
    intro c d c2 hsne hlt hts h
    simp only [Cursor.advanceLoop] at h
    by_cases hc : c.curPosition + d ≥ c.startOfNextEntry
    · rw [if_pos hc] at h
      by_cases he : c.curIndex + 1 ≥ c.entries.length
      · rw [if_pos he] at h; exact absurd h (by simp)
      · rw [if_neg he] at h
        refine ih c.step d c2 c.step_sneCorrect (by simp; omega) ?_ h
        show (c.entries.getD (c.curIndex + 1) dEntry).1 ≤ c.curPosition + d
        refine le_trans ?_ hc
        rw [hsne]
        unfold Cursor.getStartOfNextEntry
        rw [if_pos (by omega)]
    · rw [if_neg hc] at h
      injection h with h
      subst h
      exact hts

/-- `advance` with a non-negative amount preserves cursor well-formedness
and moves the position by exactly the requested amount. -/
theorem advance_WF (c : Cursor) (d : ℚ)
    (hWF : c.WF) (hd : 0 ≤ d) (c2 : Cursor) (h : c.advance d = .ok c2) :
    c2.WF ∧ c2.entries = c.entries ∧ c2.curPosition = c.curPosition + d ∧
      c.curIndex ≤ c2.curIndex := by
  obtain ⟨hlt, hsne, hpos, hlast⟩ := hWF
  obtain ⟨h1, h2, h3, h4, h5, h6⟩ := advanceLoop_ok_spec _ _ _ _ h
  have hafter : (c2.entries.getD c2.curIndex dEntry).1 ≤ c2.curPosition :=
    advanceLoop_pos_after _ c d c2 hsne hlt (by linarith) h
  refine ⟨⟨?_, h4 hsne, hafter, fun _ => h6⟩, h1, h3, h2⟩
  rw [h1]
  exact h5 hlt


/-- The waveform level at any time inside (or, for the last entry, at or
after) interval `i` is the level stored at entry `i`. -/
theorem levelAt_getD : ∀ (l : List Entry) (i : ℕ) (t : ℚ),
    strictIncr l → i < l.length →
    (l.getD i dEntry).1 ≤ t → (i + 1 < l.length → t < (l.getD (i + 1) dEntry).1) →
    levelAt l t = (l.getD i dEntry).2 := by
  intro l
  induction l with
  | nil => intro i t _ hi _ _; simp at hi
  | cons e rest ih =>
    intro i t hs hi hle hnext
    rcases i with _ | j
    · rcases rest with _ | ⟨e2, r2⟩
      · rfl
      · have ht : t < e2.1 := by
          have := hnext (by simp)
          simpa using this
        show (if t < e2.1 then e.2 else levelAt (e2 :: r2) t) = e.2
        rw [if_pos ht]
    · rcases rest with _ | ⟨e2, r2⟩
      · simp at hi
      · have hts1 : e2.1 ≤ t := by
          refine le_trans ?_ hle
          have : ((e :: e2 :: r2).getD 1 dEntry).1 ≤ ((e :: e2 :: r2).getD (j + 1) dEntry).1 :=
            ts_mono hs (by omega) (by simpa using hi)
          simpa using this
        show (if t < e2.1 then e.2 else levelAt (e2 :: r2) t) = _
        rw [if_neg (not_lt.mpr hts1)]
        have hrest : strictIncr (e2 :: r2) := List.Pairwise.of_cons hs
        have := ih j t hrest (by simpa using hi) (by simpa using hle)
          (fun hj => by
            simp only [List.length_cons] at hj
            have hfull := hnext (by simp only [List.length_cons]; omega)
            simpa [List.getD_cons_succ] using hfull)
        simpa using this

/-- Over a well-formed cursor, `getValue` reads exactly the waveform level
at the cursor's position. -/
theorem WF_getValue (c : Cursor) (hs : strictIncr c.entries) (hWF : c.WF) :
    c.getValue = levelAt c.entries c.curPosition := by
  obtain ⟨hlt, hsne, hpos, hlast⟩ := hWF
  unfold Cursor.getValue
  refine (levelAt_getD c.entries c.curIndex c.curPosition hs hlt hpos ?_).symm
  intro hin
  have := hlast hin
  rw [hsne] at this
  unfold Cursor.getStartOfNextEntry at this
  rwa [if_pos (by omega)] at this


/-- A normal `advanceUntilChangeTo` return always yields a well-formed
cursor over the same entries, strictly further along. -/
theorem aUCT_ok (c : Cursor) (v : ℤ) (hs : strictIncr c.entries)
    (hsne : sneCorrect c) (c2 : Cursor) (h : c.advanceUntilChangeTo v = .ok c2) :
    c2.WF ∧ c2.entries = c.entries ∧ c.curIndex < c2.curIndex := by
  rcases aUCT_spec c v hs hsne with hoor | ⟨c2', hok, hent, hsne2, hidx, hlen, hposeq, _⟩
  · rw [h] at hoor; exact absurd hoor (by simp)
  · rw [h] at hok
    injection hok with he
    subst he
    refine ⟨⟨by rw [hent]; omega, hsne2, ?_, ?_⟩, hent, hidx⟩
    · rw [hent]; exact le_of_eq hposeq.symm
    · intro hin
      rw [hent] at hin
      rw [hsne2]
      unfold Cursor.getStartOfNextEntry
      rw [hent]
      rw [if_pos (by omega)]
      rw [hposeq]
      exact ts_strict hs (by omega) (by omega)

/-- The bit-sampling loop preserves well-formedness, shares the entries and
never moves the index backwards; it fails only with out-of-range. -/
theorem sampleBits_spec : ∀ (k : ℕ) (c : Cursor) (bp : ℚ) (data factor : ℤ),
    c.WF → 0 ≤ bp →
    (recognizeIter.sampleBits k c bp data factor = .error .oor ∨
      ∃ r c2, recognizeIter.sampleBits k c bp data factor = .ok (r, c2) ∧
        c2.WF ∧ c2.entries = c.entries ∧ c.curIndex ≤ c2.curIndex) := by
  intro k
  induction k with
  | zero =>
    intro c bp data factor hWF _
    right
    exact ⟨data, c, rfl, hWF, rfl, le_refl _⟩
  | succ m ih =>
    intro c bp data factor hWF hbp
    rcases advance_cases c bp (le_of_lt hWF.1) with herr | ⟨c3, hok⟩
    · left
      unfold recognizeIter.sampleBits
      rw [herr]
    · obtain ⟨hWF3, hent3, _, hidx3⟩ := advance_WF c bp hWF hbp c3 hok
      rcases ih c3 bp (data + factor * c.getValue) (factor * 2) hWF3 hbp with
        herr2 | ⟨r, c4, hok4, hWF4, hent4, hidx4⟩
      · left
        unfold recognizeIter.sampleBits
        rw [hok]
        exact herr2
      · right
        refine ⟨r, c4, ?_, hWF4, by rw [hent4, hent3], by omega⟩
        unfold recognizeIter.sampleBits
        rw [hok]
        exact hok4


/-- One recognizer iteration over a sorted channel with a correctly cached
boundary: it raises out-of-range (ending the frame sequence), or returns a
well-formed cursor strictly further along over the same entries; and any
frame it emits has level 0 half a bit period after its start timestamp —
exactly the debounce check on the cloned cursor. -/
theorem recognizeIter_spec (c : Cursor) (bp : ℚ) (bits : ℕ) (om : Bool)
    (hs : strictIncr c.entries) (hsne : sneCorrect c) (hbp : 0 ≤ bp) :
    recognizeIter c bp bits om = .error .oor ∨
    ∃ r c2, recognizeIter c bp bits om = .ok (r, c2) ∧
      c2.WF ∧ c2.entries = c.entries ∧ c.curIndex < c2.curIndex ∧
      (∀ fr, r = some fr → levelAt c.entries (fr.1 + bp / 2) = 0) := by
  rcases hr : c.advanceUntilChangeTo 0 with e | c1
  · have : e = .oor := by
      rcases aUCT_spec c 0 hs hsne with hoor | ⟨c2', hok, _⟩
      · rw [hr] at hoor
        injection hoor
      · rw [hr] at hok
        exact absurd hok (by simp)
    subst this
    left
    unfold recognizeIter
    rw [hr]
  · obtain ⟨hWF1, hent1, hidx1⟩ := aUCT_ok c 0 hs hsne c1 hr
    have hs1 : strictIncr c1.entries := by rwa [hent1]
    rcases advance_cases (Cursor.clone c1) (bp / 2) (le_of_lt hWF1.1) with hperr | ⟨pk, hpok⟩
    · left
      unfold recognizeIter
      rw [hr]
      dsimp only
      rw [hperr]
    · obtain ⟨hWFp, hentp, hposp, _⟩ :=
        advance_WF (Cursor.clone c1) (bp / 2) hWF1 (by positivity) pk hpok
      have hpkval : pk.getValue = levelAt c.entries (c1.curPosition + bp / 2) := by
        have hgv := WF_getValue pk (by rw [hentp]; exact hs1) hWFp
        rw [hgv, hentp, hposp]
        show levelAt c1.entries (c1.curPosition + bp / 2) = _
        rw [hent1]
      by_cases hpv : pk.getValue = 0
      · rcases advance_cases c1 (bp * (3 / 2)) (le_of_lt hWF1.1) with haerr | ⟨c2a, haok⟩
        · left
          unfold recognizeIter
          rw [hr]
          dsimp only
          rw [hpok]
          dsimp only
          rw [if_neg (not_not_intro hpv), haerr]
        · obtain ⟨hWF2a, hent2a, _, hidx2a⟩ :=
            advance_WF c1 (bp * (3 / 2)) hWF1 (by positivity) c2a haok
          rcases sampleBits_spec bits c2a bp 0 1 hWF2a hbp with
            hserr | ⟨data, c3, hsok, hWF3, hent3, hidx3⟩
          · left
            unfold recognizeIter
            rw [hr]
            dsimp only
            rw [hpok]
            dsimp only
            rw [if_neg (not_not_intro hpv), haok]
            dsimp only
            rw [hserr]
          · rcases advance_cases c3 (bp / 2) (le_of_lt hWF3.1) with hferr | ⟨c4, hfok⟩
            · left
              unfold recognizeIter
              rw [hr]
              dsimp only
              rw [hpok]
              dsimp only
              rw [if_neg (not_not_intro hpv), haok]
              dsimp only
              rw [hsok]
              dsimp only
              rw [hferr]
            · obtain ⟨hWF4, hent4, _, hidx4⟩ :=
                advance_WF c3 (bp / 2) hWF3 (by positivity) c4 hfok
              have hframe : ∀ fr : ℚ × ℤ × Bool,
                  fr.1 = c1.curPosition → levelAt c.entries (fr.1 + bp / 2) = 0 := by
                intro fr hfr
                rw [hfr, ← hpkval]
                exact hpv
              have hiter : recognizeIter c bp bits om =
                  (if om = true ∧ ¬(c3.getValue = 1) then .ok (none, c4)
                   else .ok (some (c1.getPosition, data, decide (c3.getValue = 1)), c4)) := by
                unfold recognizeIter
                rw [hr]
                dsimp only
                rw [hpok]
                dsimp only
                rw [if_neg (not_not_intro hpv), haok]
                dsimp only
                rw [hsok]
                dsimp only
                rw [hfok]
              right
              by_cases homit : om = true ∧ ¬(c3.getValue = 1)
              · refine ⟨none, c4, ?_, hWF4, by rw [hent4, hent3, hent2a, hent1],
                  by omega, ?_⟩
                · rw [hiter, if_pos homit]
                · intro fr hfr; exact absurd hfr (by simp)
              · refine ⟨some (c1.getPosition, data, decide (c3.getValue = 1)), c4, ?_,
                  hWF4, by rw [hent4, hent3, hent2a, hent1], by omega, ?_⟩
                · rw [hiter, if_neg homit]
                · intro fr hfr
                  injection hfr with hfr
                  subst hfr
                  exact hframe _ rfl
      · rcases advance_cases c1 (bp / 2) (le_of_lt hWF1.1) with hderr | ⟨c2b, hdok⟩
        · left
          unfold recognizeIter
          rw [hr]
          dsimp only
          rw [hpok]
          dsimp only
          rw [if_pos hpv, hderr]
        · obtain ⟨hWF2b, hent2b, _, hidx2b⟩ :=
            advance_WF c1 (bp / 2) hWF1 (by positivity) c2b hdok
          right
          refine ⟨none, c2b, ?_, hWF2b, by rw [hent2b, hent1], by omega, ?_⟩
          · unfold recognizeIter
            rw [hr]
            dsimp only
            rw [hpok]
            dsimp only
            rw [if_pos hpv, hdok]
          · intro fr hfr; exact absurd hfr (by simp)


/-- The recognizer's outer loop, run with enough fuel over a sorted channel,
always returns a frame list (the out-of-range condition raised anywhere in
an iteration is caught here and ends the sequence), and every returned
frame carries level 0 half a bit period after its start timestamp. -/
theorem recognizeLoop_spec : ∀ (fuel : ℕ) (c : Cursor) (bp : ℚ) (bits : ℕ) (om : Bool),
    strictIncr c.entries → sneCorrect c → c.curIndex < c.entries.length → 0 ≤ bp →
    c.entries.length + 1 ≤ fuel + c.curIndex →
    ∃ l, recognizeLoop fuel c bp bits om = .ok l ∧
      ∀ fr ∈ l, levelAt c.entries (fr.1 + bp / 2) = 0 := by
  intro fuel
  induction fuel with
  | zero => intro c bp bits om _ _ hlt _ hf; omega
  | succ n ih =>
    intro c bp bits om hs hsne hlt hbp hf
    rcases recognizeIter_spec c bp bits om hs hsne hbp with
      hoor | ⟨r, c2, hok, hWF2, hent2, hidx2, hframe⟩
    · refine ⟨[], ?_, by simp⟩
      simp only [recognizeLoop]
      rw [hoor]
    · obtain ⟨l2, hl2, hprop2⟩ := ih c2 bp bits om (by rwa [hent2]) hWF2.2.1 hWF2.1 hbp
        (by rw [hent2]; omega)
      refine ⟨r.toList ++ l2, ?_, ?_⟩
      · simp only [recognizeLoop]
        rw [hok]
        dsimp only
        rw [hl2]
      · intro fr hfr
        rcases List.mem_append.mp hfr with hin | hin
        · have : r = some fr := Option.mem_toList.mp hin
          exact hframe fr this
        · have := hprop2 fr hin
          rwa [hent2] at this

/-- `advanceUntilChangeTo` over any cursor, with no waveform assumptions:
it raises out-of-range or returns a cursor strictly further along, still in
range, over the same entries; the fuel and assert errors are unreachable. -/
theorem aUCT_total (c : Cursor) (v : ℤ) :
    c.advanceUntilChangeTo v = .error .oor ∨
    ∃ c2, c.advanceUntilChangeTo v = .ok c2 ∧ c2.entries = c.entries ∧
      c.curIndex < c2.curIndex ∧ c2.curIndex < c.entries.length := by
  unfold Cursor.advanceUntilChangeTo
  by_cases hend : c.curIndex ≥ c.entries.length
  · left
    rw [if_pos hend]
  · rw [if_neg hend]
    have hlt : c.curIndex < c.entries.length := by omega
    rcases advance_cases c (c.startOfNextEntry - c.curPosition) (le_of_lt hlt) with
      herr | ⟨c1, hok⟩
    · left
      rw [herr]
    · rw [hok]
      dsimp only
      obtain ⟨hent1, _, _, _, h5, _⟩ := advanceLoop_ok_spec _ _ _ _ hok
      have hstrict : c.curIndex < c1.curIndex :=
        advanceLoop_strict _ _ _ _ (le_of_eq (by ring)) hok
      rw [if_neg (by omega)]
      by_cases hv : c1.getValue ≠ v
      · rw [if_pos hv]
        have hc1lt : c1.curIndex < c1.entries.length := by rw [hent1]; exact h5 hlt
        rcases advance_cases c1 (c1.startOfNextEntry - c1.curPosition)
            (le_of_lt hc1lt) with herr2 | ⟨c2, hok2⟩
        · left
          exact herr2
        · right
          obtain ⟨hent2, hmono2, _, _, h5b, _⟩ := advanceLoop_ok_spec _ _ _ _ hok2
          have hc2lt := h5b hc1lt
          rw [hent1] at hc2lt
          exact ⟨c2, hok2, by rw [hent2, hent1], by omega, hc2lt⟩
      · rw [if_neg hv]
        exact Or.inr ⟨c1, rfl, hent1, hstrict, h5 hlt⟩

/-- Bit sampling over any in-range cursor, for any bit period: out-of-range
or a normal return, still in range, over the same entries. -/
theorem sampleBits_total : ∀ (k : ℕ) (c : Cursor) (bp : ℚ) (data factor : ℤ),
    c.curIndex < c.entries.length →
    (recognizeIter.sampleBits k c bp data factor = .error .oor ∨
      ∃ r c2, recognizeIter.sampleBits k c bp data factor = .ok (r, c2) ∧
        c2.entries = c.entries ∧ c.curIndex ≤ c2.curIndex ∧
        c2.curIndex < c.entries.length) := by
  intro k
  induction k with
  | zero =>
    intro c bp data factor hlt
    right
    exact ⟨data, c, rfl, rfl, le_refl _, hlt⟩
  | succ m ih =>
    intro c bp data factor hlt
    rcases advance_cases c bp (le_of_lt hlt) with herr | ⟨c3, hok⟩
    · left
      unfold recognizeIter.sampleBits
      rw [herr]
    · obtain ⟨hent3, hmono3, _, _, h5, _⟩ := advanceLoop_ok_spec _ _ _ _ hok
      have hlt3 : c3.curIndex < c3.entries.length := by rw [hent3]; exact h5 hlt
      rcases ih c3 bp (data + factor * c.getValue) (factor * 2) hlt3 with
        herr2 | ⟨r, c4, hok4, hent4, hmono4, hlt4⟩
      · left
        unfold recognizeIter.sampleBits
        rw [hok]
        exact herr2
      · right
        rw [hent3] at hlt4
        refine ⟨r, c4, ?_, by rw [hent4, hent3], by omega, hlt4⟩
        unfold recognizeIter.sampleBits
        rw [hok]
        exact hok4

/-- One recognizer iteration over any cursor and any bit period (positive,
zero or negative): it raises out-of-range or returns a strictly advanced,
in-range cursor over the same entries. -/
theorem recognizeIter_total (c : Cursor) (bp : ℚ) (bits : ℕ) (om : Bool) :
    recognizeIter c bp bits om = .error .oor ∨
    ∃ r c2, recognizeIter c bp bits om = .ok (r, c2) ∧
      c2.entries = c.entries ∧ c.curIndex < c2.curIndex ∧
      c2.curIndex < c.entries.length := by
  rcases aUCT_total c 0 with hoor | ⟨c1, hr, hent1, hidx1, hlt1⟩
  · left
    unfold recognizeIter
    rw [hoor]
  · have hlt1b : c1.curIndex < c1.entries.length := by rw [hent1]; exact hlt1
    rcases advance_cases (Cursor.clone c1) (bp / 2) (le_of_lt hlt1b) with
      hperr | ⟨pk, hpok⟩
    · left
      unfold recognizeIter
      rw [hr]
      dsimp only
      rw [hperr]
    · by_cases hpv : pk.getValue = 0
      · rcases advance_cases c1 (bp * (3 / 2)) (le_of_lt hlt1b) with haerr | ⟨c2a, haok⟩
        · left
          unfold recognizeIter
          rw [hr]
          dsimp only
          rw [hpok]
          dsimp only
          rw [if_neg (not_not_intro hpv), haerr]
        · obtain ⟨hent2a, hmono2a, _, _, h5a, _⟩ := advanceLoop_ok_spec _ _ _ _ haok
          have hlt2a : c2a.curIndex < c2a.entries.length := by
            rw [hent2a]; exact h5a hlt1b
          rcases sampleBits_total bits c2a bp 0 1 hlt2a with
            hserr | ⟨data, c3, hsok, hent3, hmono3, hlt3⟩
          · left
            unfold recognizeIter
            rw [hr]
            dsimp only
            rw [hpok]
            dsimp only
            rw [if_neg (not_not_intro hpv), haok]
            dsimp only
            rw [hserr]
          · have hlt3b : c3.curIndex < c3.entries.length := by rw [hent3]; exact hlt3
            rcases advance_cases c3 (bp / 2) (le_of_lt hlt3b) with hferr | ⟨c4, hfok⟩
            · left
              unfold recognizeIter
              rw [hr]
              dsimp only
              rw [hpok]
              dsimp only
              rw [if_neg (not_not_intro hpv), haok]
              dsimp only
              rw [hsok]
              dsimp only
              rw [hferr]
            · obtain ⟨hent4, hmono4, _, _, h5f, _⟩ := advanceLoop_ok_spec _ _ _ _ hfok
              have hlt4 : c4.curIndex < c.entries.length := by
                have hc4 := h5f hlt3b
                rw [hent3, hent2a, hent1] at hc4
                exact hc4
              have hiter : recognizeIter c bp bits om =
                  (if om = true ∧ ¬(c3.getValue = 1) then .ok (none, c4)
                   else .ok (some (c1.getPosition, data, decide (c3.getValue = 1)), c4)) := by
                unfold recognizeIter
                rw [hr]
                dsimp only
                rw [hpok]
                dsimp only
                rw [if_neg (not_not_intro hpv), haok]
                dsimp only
                rw [hsok]
                dsimp only
                rw [hfok]
              right
              by_cases homit : om = true ∧ ¬(c3.getValue = 1)
              · exact ⟨none, c4, by rw [hiter, if_pos homit],
                  by rw [hent4, hent3, hent2a, hent1], by omega, hlt4⟩
              · exact ⟨some (c1.getPosition, data, decide (c3.getValue = 1)), c4,
                  by rw [hiter, if_neg homit],
                  by rw [hent4, hent3, hent2a, hent1], by omega, hlt4⟩
      · rcases advance_cases c1 (bp / 2) (le_of_lt hlt1b) with hderr | ⟨c2b, hdok⟩
        · left
          unfold recognizeIter
          rw [hr]
          dsimp only
          rw [hpok]
          dsimp only
          rw [if_pos hpv, hderr]
        · obtain ⟨hent2b, hmono2b, _, _, h5b, _⟩ := advanceLoop_ok_spec _ _ _ _ hdok
          have hlt2b := h5b hlt1b
          rw [hent1] at hlt2b
          right
          refine ⟨none, c2b, ?_, by rw [hent2b, hent1], by omega, hlt2b⟩
          unfold recognizeIter
          rw [hr]
          dsimp only
          rw [hpok]
          dsimp only
          rw [if_pos hpv, hdok]

/-- The recognizer's outer loop with sufficient fuel, over any in-range
cursor and any bit period, always returns a frame list: each iteration
strictly advances the bounded cursor index, and the out-of-range raised
anywhere inside an iteration is caught here. -/
theorem recognizeLoop_total : ∀ (fuel : ℕ) (c : Cursor) (bp : ℚ) (bits : ℕ) (om : Bool),
    c.curIndex < c.entries.length →
    c.entries.length + 1 ≤ fuel + c.curIndex →
    ∃ l, recognizeLoop fuel c bp bits om = .ok l := by
  intro fuel
  induction fuel with
  | zero => intro c bp bits om hlt hf; omega
  | succ n ih =>
    intro c bp bits om hlt hf
    rcases recognizeIter_total c bp bits om with hoor | ⟨r, c2, hok, hent2, hidx2, hlt2⟩
    · refine ⟨[], ?_⟩
      simp only [recognizeLoop]
      rw [hoor]
    · obtain ⟨l2, hl2⟩ := ih c2 bp bits om (by rw [hent2]; exact hlt2)
        (by rw [hent2]; omega)
      refine ⟨r.toList ++ l2, ?_⟩
      simp only [recognizeLoop]
      rw [hok]
      dsimp only
      rw [hl2]

/-- C5 (corrected).  For every finalized (non-empty) channel, every nonzero
baud rate — positive or negative — and every bits-per-frame and omit flag,
`recognizeUART` returns a finite frame list and ends normally: the cursor's
out-of-range condition, wherever it arises inside an iteration, is caught
at the recognizer's outer loop and terminates the sequence, and no failure
reaches the caller.  The exclusion of baud rate 0 is forced: there
`bitperiod = 1 / float(baudrate)` raises ZeroDivisionError before the first
frame, so the sequence does not end normally (see the counterexample). -/
theorem recognizeUART_ends_normally (channel : List Entry) (baudrate : ℚ)
    (bits : ℕ) (om : Bool) (hch : channel ≠ []) (hbaud : baudrate ≠ 0) :
    (recognizeUART channel baudrate bits om).isOk = true := by
  have hlen : 0 < channel.length := List.length_pos.mpr hch
  have hinit : Cursor.initFor channel = some
      ⟨channel, 0, (channel.getD 0 dEntry).1,
        Cursor.getStartOfNextEntry ⟨channel, 0, (channel.getD 0 dEntry).1, 0⟩⟩ := by
    unfold Cursor.initFor
    rw [if_pos (by omega)]
  obtain ⟨l, hl⟩ := recognizeLoop_total (channel.length + 1)
    ⟨channel, 0, (channel.getD 0 dEntry).1,
      Cursor.getStartOfNextEntry ⟨channel, 0, (channel.getD 0 dEntry).1, 0⟩⟩
    (1 / baudrate) bits om hlen
    (show channel.length + 1 ≤ channel.length + 1 + 0 by omega)
  unfold recognizeUART
  rw [hinit]
  dsimp only
  rw [if_neg hbaud, hl]
  rfl

attribute [local semireducible] Rat.add Rat.sub Rat.mul Rat.inv in
/-- Counterexample to C5 as stated: over a concrete finalized channel, at
baud rate 0 the recognizer does not end normally — computing
`bitperiod = 1 / float(baudrate)` raises ZeroDivisionError before any frame
is produced, and that failure surfaces to the caller. -/
theorem recognizeUART_zero_baud_cex :
    Channel.finishAdding [((0:ℚ),(1:ℤ)),(1,0),(5,1)] 10 =
      some [((0:ℚ),(1:ℤ)),(1,0),(5,1),(15,1)] ∧
    recognizeUART [((0:ℚ),(1:ℤ)),(1,0),(5,1),(15,1)] 0 8 true = .error .zeroDiv ∧
    (recognizeUART [((0:ℚ),(1:ℤ)),(1,0),(5,1),(15,1)] 0 8 true).isOk = false := by
  refine ⟨by decide, by decide, by decide⟩

attribute [local semireducible] Rat.add Rat.sub Rat.mul Rat.inv in
/-- Witness for C5 (amended) on a concrete finalized channel, at a positive
and at a negative baud rate. -/
theorem recognizeUART_ends_normally_witness :
    ([((0:ℚ),(1:ℤ)),(1,0),(5,1),(15,1)] : List Entry) ≠ [] ∧
    (9600:ℚ) ≠ 0 ∧
    (recognizeUART [((0:ℚ),(1:ℤ)),(1,0),(5,1),(15,1)] 9600 8 true).isOk = true ∧
    (-3:ℚ) ≠ 0 ∧
    (recognizeUART [((0:ℚ),(1:ℤ)),(1,0),(5,1),(15,1)] (-3) 8 true).isOk = true := by
  refine ⟨by decide, by decide, ?_, by decide, ?_⟩
  · exact recognizeUART_ends_normally [((0:ℚ),(1:ℤ)),(1,0),(5,1),(15,1)] 9600 8 true
      (by decide) (by decide)
  · exact recognizeUART_ends_normally [((0:ℚ),(1:ℤ)),(1,0),(5,1),(15,1)] (-3) 8 true
      (by decide) (by decide)


/-- C6 (corrected).  A candidate start pulse — an entry `(t, 0)` followed by
another transition less than half a bit period later — is never decoded
into an emitted frame, provided the waveform level at exactly `t + half a
bit period` is nonzero (the level the half-bit lookahead on the cloned
cursor reads).  Every emitted frame starts where that lookahead read 0, so
no frame starts at `t`.  The extra level condition is forced: when the
signal returns to 0 before the half-bit mark, the debounce accepts the
short pulse and decodes a frame from it (see the counterexample). -/
theorem short_pulse_nonzero_halfbit_never_emitted
    (channel : List Entry) (baudrate : ℚ) (bits : ℕ) (om : Bool)
    (frames : List (ℚ × ℤ × Bool)) (k : ℕ) (t : ℚ)
    (hs : strictIncr channel) (hbaud : 0 < baudrate)
    (hrun : recognizeUART channel baudrate bits om = .ok frames)
    (_hk : channel.getD k dEntry = (t, 0))
    (hk1 : k + 1 < channel.length)
    (_hshort : (channel.getD (k + 1) dEntry).1 - t < (1 / baudrate) / 2)
    (hlevel : levelAt channel (t + (1 / baudrate) / 2) ≠ 0) :
    ∀ fr ∈ frames, fr.1 ≠ t := by
  have hlen : 0 < channel.length := by omega
  have hinit : Cursor.initFor channel = some
      ⟨channel, 0, (channel.getD 0 dEntry).1,
        Cursor.getStartOfNextEntry ⟨channel, 0, (channel.getD 0 dEntry).1, 0⟩⟩ := by
    unfold Cursor.initFor
    rw [if_pos (by omega)]
  obtain ⟨l, hl, hprop⟩ := recognizeLoop_spec (channel.length + 1)
    ⟨channel, 0, (channel.getD 0 dEntry).1,
      Cursor.getStartOfNextEntry ⟨channel, 0, (channel.getD 0 dEntry).1, 0⟩⟩
    (1 / baudrate) bits om hs rfl hlen (by positivity)
    (show channel.length + 1 ≤ channel.length + 1 + 0 by omega)
  unfold recognizeUART at hrun
  rw [hinit] at hrun
  dsimp only at hrun
  rw [if_neg (ne_of_gt hbaud)] at hrun
  rw [hl] at hrun
  injection hrun with hrun
  subst hrun
  intro fr hfr heq
  have := hprop fr hfr
  rw [heq] at this
  exact hlevel this

attribute [local semireducible] Rat.add Rat.sub Rat.mul Rat.inv in
/-- Counterexample to C6 as stated: in the finalized waveform
`[(0,1),(10,0),(10.1,1),(10.2,0),(19,1),(29,1)]` at baud 1, the start pulse
at `(10,0)` lasts 1/10 of a bit period — strictly less than half — yet the
signal is back at 0 at the half-bit lookahead, so the debounce accepts it
and the recognizer emits the frame `(10, 0, true)` decoded from that very
pulse. -/
theorem short_pulse_decoded_cex :
    Channel.finishAdding [((0:ℚ),(1:ℤ)),(10,0),(101/10,1),(51/5,0),(19,1)] 10 =
      some [((0:ℚ),(1:ℤ)),(10,0),(101/10,1),(51/5,0),(19,1),(29,1)] ∧
    (101/10 : ℚ) - 10 < ((1:ℚ)/1)/2 ∧
    recognizeUART [((0:ℚ),(1:ℤ)),(10,0),(101/10,1),(51/5,0),(19,1),(29,1)] 1 8 true =
      .ok [(10, 0, true)] := by
  refine ⟨by decide, by decide, by decide⟩

attribute [local semireducible] Rat.add Rat.sub Rat.mul Rat.inv in
/-- Witness for C6 (amended): in the finalized waveform
`[(0,1),(10,0),(10.1,1),(20,0),(29,1),(39,1)]` at baud 1, the short pulse at
`(10,0)` has level 1 at its half-bit lookahead, decoding yields exactly the
frame `(20,0,true)`, and that frame's start is not the pulse timestamp 10. -/
theorem short_pulse_nonzero_halfbit_never_emitted_witness :
    strictIncr [((0:ℚ),(1:ℤ)),(10,0),(101/10,1),(20,0),(29,1),(39,1)] ∧
    (0:ℚ) < 1 ∧
    recognizeUART [((0:ℚ),(1:ℤ)),(10,0),(101/10,1),(20,0),(29,1),(39,1)] 1 8 true =
      .ok [(20, 0, true)] ∧
    ([((0:ℚ),(1:ℤ)),(10,0),(101/10,1),(20,0),(29,1),(39,1)] : List Entry).getD 1 dEntry =
      (10, 0) ∧
    1 + 1 < ([((0:ℚ),(1:ℤ)),(10,0),(101/10,1),(20,0),(29,1),(39,1)] : List Entry).length ∧
    (([((0:ℚ),(1:ℤ)),(10,0),(101/10,1),(20,0),(29,1),(39,1)] : List Entry).getD 2
      dEntry).1 - 10 < ((1:ℚ)/1)/2 ∧
    levelAt [((0:ℚ),(1:ℤ)),(10,0),(101/10,1),(20,0),(29,1),(39,1)] (10 + ((1:ℚ)/1)/2) ≠ 0 ∧
    (((20:ℚ), ((0:ℤ), true)).1 ≠ (10:ℚ)) := by
  refine ⟨by decide, by decide, by decide, by decide, by decide, by decide, by decide, ?_⟩
  exact short_pulse_nonzero_halfbit_never_emitted
    [((0:ℚ),(1:ℤ)),(10,0),(101/10,1),(20,0),(29,1),(39,1)] 1 8 true
    [(20, 0, true)] 1 10 (by decide) (by decide) (by decide) (by decide)
    (by decide) (by decide) (by decide) (20, 0, true) (by decide)

end SlibDecode
